import Mathlib

/-!
Shallow embedding of the `convert` media-conversion tool (`main.go`).

The program shells out to `ffprobe` / `ffmpeg` and touches the filesystem
through `os.Stat`, `ioutil.ReadDir`, `os.Rename`, `os.Remove`, `os.Open`,
`os.Create` and `io.Copy`.  The embedding models

* file contents as an association list `FS` from path strings to contents,
* the operating system / external tools as an `Env` record of response
  functions (a `none` probe result stands for a non-zero `ffprobe` exit or
  JSON that fails to unmarshal; `renameOk`, `createOk`, `copyOk`, `closeOk`
  inject the possible failures of the corresponding syscalls, e.g. a
  cross-device `os.Rename`),
* every externally visible action as an element of an effect trace `Eff`,
* Go's slash-separated path functions (`filepath.Base`, `filepath.Ext`,
  `filepath.Dir`, `Join`, `strings.TrimSuffix`) as string functions on
  clean, slash-separated relative-or-absolute paths without trailing
  slashes (the forms the program itself builds).
-/


/-- Model of `strings.TrimSuffix` on character lists so that it reduces inside the
kernel: drop `suf` from the end of `s` when it is a suffix. -/
def trimSuffixChars (s suf : List Char) : List Char :=
  if suf.isSuffixOf s then s.take (s.length - suf.length) else s

/-- Model of `strings.TrimSuffix`. -/
def trimSuffix (s suffix : String) : String :=
  String.mk (trimSuffixChars s.toList suffix.toList)

/-- The characters of a path after its last slash. -/
def baseChars (cs : List Char) : List Char :=
  (cs.reverse.takeWhile (fun c => c ≠ '/')).reverse

/-- Model of `filepath.Base` for clean paths: the part after the last slash. -/
def goBase (p : String) : String :=
  String.mk (baseChars p.toList)

/-- Model of `filepath.Ext`: the suffix of the base name starting at its last dot,
`""` when the base name has no dot. -/
def goExt (p : String) : String :=
  let cs := baseChars p.toList
  if cs.contains '.' then
    String.mk ('.' :: (cs.reverse.takeWhile (fun c => c ≠ '.')).reverse)
  else ""

/-- Model of `filepath.Dir` for clean paths: the part before the last slash,
`"."` when there is no slash, `"/"` for a top-level absolute path. -/
def goDir (p : String) : String :=
  let cs := p.toList
  if cs.contains '/' then
    let d := ((cs.reverse.dropWhile (fun c => c ≠ '/')).drop 1).reverse
    if d.isEmpty then "/" else String.mk d
  else "."

/-- Model of `filepath.Join` / `path.Join` on two components, with the cleaning the
program relies on (`Join(".", b) = b`). -/
def goJoin (a b : String) : String :=
  if a = "" ∨ a = "." then b
  else if a = "/" then "/" ++ b
  else a ++ "/" ++ b

/-- Function `stringIn` from `main.go`. -/
def stringIn (val : String) (choices : List String) : Bool :=
  choices.any (fun s => val == s)

/-- Model of `strings.HasPrefix(s, ".")` on characters. -/
def hasDotMarker (cs : List Char) : Bool :=
  match cs with
  | '.' :: _ => true
  | _ => false

/-- Predicate `isVid` from `main.go`: base name must not start with the hidden-file
dot and the extension must be in the fixed allow-list. -/
def isVid (path : String) : Bool :=
  let base := goBase path
  let ext := goExt base
  !hasDotMarker base.toList && stringIn ext [".mp4", ".avi", ".mkv"]

/-- Record `StreamInfo` from `main.go` (probe JSON schema). -/
structure StreamInfo where
  index : Int
  codecName : String
  codecLongName : String
  codecType : String
deriving DecidableEq

/-- Record `FormatInfo` from `main.go` (probe JSON schema). -/
structure FormatInfo where
  filename : String
  formatName : String
  formatLongName : String
deriving DecidableEq

/-- Record `FfprobeOutput` from `main.go`. -/
structure FfprobeOutput where
  streams : List StreamInfo
  format : FormatInfo
deriving DecidableEq

/-- One iteration of the codec-extraction loop of `convert` (`main.go`
lines 165-172): the `switch` overwrites the accumulated audio / video
codec name on every stream of the matching type. -/
def codecStep (acc : String × String) (s : StreamInfo) : String × String :=
  if s.codecType = "audio" then (s.codecName, acc.2)
  else if s.codecType = "video" then (acc.1, s.codecName)
  else acc

/-- The codec-extraction loop of `convert`, starting from Go's zero
strings. -/
def extractCodecs (streams : List StreamInfo) : String × String :=
  streams.foldl codecStep ("", "")

/-- File contents, keyed by path string. -/
abbrev FS := List (String × String)

/-- Contents at a path (`none`: no such file). -/
def FS.get (fs : FS) (p : String) : Option String :=
  (fs.find? (fun e => e.1 == p)).map (fun e => e.2)

/-- Delete a path. -/
def FS.del (fs : FS) (p : String) : FS :=
  fs.filter (fun e => e.1 != p)

/-- Create or overwrite a path with the given contents. -/
def FS.set (fs : FS) (p v : String) : FS :=
  (p, v) :: fs.del p

/-- Responses of the operating system and of the external tools.
`probe p = none` models `ffprobe` exiting non-zero or emitting JSON that
`json.Unmarshal` rejects.  `encodeOk` is `ffmpeg`'s exit status;
`encodeContent` is what it leaves in the temporary file on success and
`encodeJunk` what it leaves behind on failure.  `renameOk`, `createOk`,
`copyOk` and `closeOk` decide whether `os.Rename`, `os.Create`, `io.Copy`
and `File.Close` succeed; `copyJunk` is the partial data an interrupted
`io.Copy` has already written. -/
structure Env where
  probe : String → Option FfprobeOutput
  encodeOk : String → Bool
  encodeContent : String → String
  encodeJunk : String → String
  renameOk : String → String → Bool
  createOk : String → Bool
  copyOk : String → Bool
  copyJunk : String → String
  closeOk : String → Bool

/-- The flag configuration relevant to `convert` (`-d` and `-o`; the
`-c`/`-p` quality flags only pass through to `ffmpeg`'s argument list and
never influence control flow or the filesystem). -/
structure Config where
  deleteOriginal : Bool
  outputDir : String
deriving DecidableEq

/-- Externally visible actions of one `convert` call. -/
inductive Eff where
  | probeCall (p : String)
  | encodeCall (src tmp : String)
  | renameCall (src dst : String)
  | removeCall (p : String)
  | copyData (src dst : String)
deriving DecidableEq

/-- The `(outpath, err)` return of `convert`, with `fatal` standing for a
`log.Fatalf` that kills the whole process. -/
inductive COut where
  | fatal (msg : String)
  | ok (outpath : String)
  | err (outpath : String)
deriving DecidableEq

/-- State after one `convert` call: filesystem, effect trace, return. -/
structure CResult where
  fs : FS
  trace : List Eff
  out : COut
deriving DecidableEq

/-- Model of `os.Rename(src, dst)`: fails when the environment vetoes it (e.g. a
cross-device link) or the source does not exist; on success the contents
move to `dst`. -/
def fsRename (env : Env) (fs : FS) (src dst : String) : Option FS :=
  if env.renameOk src dst then
    match fs.get src with
    | some c => some ((fs.del src).set dst c)
    | none => none
  else none

/-- Function `Copy` from `main.go`: returns `true` on error.  Identical paths are a
guard-protected no-op; otherwise `os.Open(src)`, `os.Create(dst)` (which
truncates), `io.Copy` (leaving partial data on failure), `d.Close()`. -/
def goCopy (env : Env) (fs : FS) (src dst : String) : FS × List Eff × Bool :=
  if src = dst then (fs, [], false)
  else
    match fs.get src with
    | none => (fs, [Eff.copyData src dst], true)
    | some content =>
      if !env.createOk dst then (fs, [Eff.copyData src dst], true)
      else if !env.copyOk src then
        (fs.set dst (env.copyJunk src), [Eff.copyData src dst], true)
      else if !env.closeOk dst then
        (fs.set dst content, [Eff.copyData src dst], true)
      else (fs.set dst content, [Eff.copyData src dst], false)

/-- The output path computed at `main.go` lines 174-179: canonical `.mp4`
extension substituted, colocated with the source unless `-o` is set. -/
def outPathOf (cfg : Config) (path : String) : String :=
  let outputFilename := trimSuffix (goBase path) (goExt path) ++ ".mp4"
  if cfg.outputDir = "" then goJoin (goDir path) outputFilename
  else goJoin cfg.outputDir outputFilename

/-- The hidden temporary sibling used on the transcode path
(`main.go` line 194): dot-prefixed, in the source's directory. -/
def tmpPathOf (path : String) : String :=
  goJoin (goDir path) ("." ++ (trimSuffix (goBase path) (goExt path) ++ ".mp4"))

/-- Function `convert` from `main.go`: probe (fatal on failure), extract codecs,
decide skip vs transcode.  Skip path: rename when `-d` is set (error
checked), otherwise `Copy` (error checked).  Transcode path: `ffmpeg` into
the hidden temporary; on success `os.Rename(tmp, outpath)` with the error
DISCARDED, then `os.Remove(path)` when `-d` is set (error discarded); on
failure the temporary is left behind and the error returned. -/
def convert (cfg : Config) (env : Env) (fs : FS) (path : String) : CResult :=
  match env.probe path with
  | none => ⟨fs, [Eff.probeCall path], COut.fatal "unable to ffprobe input"⟩
  | some info =>
    let codecs := extractCodecs info.streams
    let outpath := outPathOf cfg path
    if codecs.1 = "aac" ∧ codecs.2 = "h264" ∧ goExt path = ".mp4" then
      if cfg.deleteOriginal then
        match fsRename env fs path outpath with
        | some fs' =>
          ⟨fs', [Eff.probeCall path, Eff.renameCall path outpath], COut.ok outpath⟩
        | none =>
          ⟨fs, [Eff.probeCall path, Eff.renameCall path outpath], COut.err path⟩
      else
        let r := goCopy env fs path outpath
        if r.2.2 then ⟨r.1, Eff.probeCall path :: r.2.1, COut.err path⟩
        else ⟨r.1, Eff.probeCall path :: r.2.1, COut.ok outpath⟩
    else
      let tmp := tmpPathOf path
      if env.encodeOk path then
        let fs1 := fs.set tmp (env.encodeContent path)
        let fs2 :=
          match fsRename env fs1 tmp outpath with
          | some fs' => fs'
          | none => fs1
        let fs3 := if cfg.deleteOriginal then fs2.del path else fs2
        ⟨fs3,
         [Eff.probeCall path, Eff.encodeCall path tmp, Eff.renameCall tmp outpath]
           ++ (if cfg.deleteOriginal then [Eff.removeCall path] else []),
         COut.ok outpath⟩
      else
        ⟨fs.set tmp (env.encodeJunk path),
         [Eff.probeCall path, Eff.encodeCall path tmp], COut.err outpath⟩

/-- Result of one worker draining a job list. -/
structure RunResult where
  fs : FS
  outcomes : List (String × COut)
  died : Bool
deriving DecidableEq

/-- Function `convertWorker` from `main.go`, sequentially draining its share of the
channel: a returned error is logged and the loop continues; a
`log.Fatalf` inside `convert` terminates the whole process, so the
remaining jobs are never processed (`died = true`). -/
def runJobs (cfg : Config) (env : Env) : FS → List String → RunResult
  | fs, [] => ⟨fs, [], false⟩
  | fs, j :: rest =>
    let r := convert cfg env fs j
    match r.out with
    | COut.fatal m => ⟨r.fs, [(j, COut.fatal m)], true⟩
    | o =>
      let k := runJobs cfg env r.fs rest
      ⟨k.fs, (j, o) :: k.outcomes, k.died⟩

/-- A directory tree, standing for the part of the disk `gatherFiles`
walks (`os.Stat` and `ioutil.ReadDir` always succeed on it; their failure
is a fatal environment error out of scope of the traversal claims). -/
inductive FsTree where
  | file : FsTree
  | dir : List (String × FsTree) → FsTree

/-- Is this node a plain file? -/
def FsTree.isFile : FsTree → Bool
  | FsTree.file => true
  | FsTree.dir _ => false

/-- The loop of `gatherFiles` (`main.go` lines 104-123): explicit LIFO
stack, `depth1` granting the first popped directory a free expansion,
non-expanded directories silently dropped, files accumulated in pop
order.  The head of `stack` is the top (Go pushes and pops at the slice's
end, so children are pushed in `ReadDir` order and popped reversed). -/
def gatherLoop (recursive : Bool) (stack : List (String × FsTree)) (depth1 : Bool)
    (files : List String) : List String :=
  match stack with
  | [] => files
  | (p, FsTree.file) :: rest => gatherLoop recursive rest depth1 (files ++ [p])
  | (p, FsTree.dir es) :: rest =>
    if recursive || depth1 then
      gatherLoop recursive ((es.map (fun e => (goJoin p e.1, e.2))).reverse ++ rest)
        false files
    else
      gatherLoop recursive rest depth1 files
termination_by (stack.map (fun e => sizeOf e.2)).sum
decreasing_by
  · simp only [List.map_cons, List.sum_cons, FsTree.file.sizeOf_spec]
    omega
  · have hle : ∀ l : List (String × FsTree),
        (l.map (fun e => sizeOf e.2)).sum ≤ sizeOf l := by
      intro l
      induction l with
      | nil => simp
      | cons e rest ih =>
        obtain ⟨n, t⟩ := e
        simp only [List.map_cons, List.sum_cons, List.cons.sizeOf_spec,
          Prod.mk.sizeOf_spec]
        omega
    have h : (es.map (fun e => sizeOf e.2)).sum < sizeOf (FsTree.dir es) := by
      have hes := hle es
      simp only [FsTree.dir.sizeOf_spec]
      omega
    simp only [List.map_cons, List.sum_cons, List.map_append, List.sum_append,
      List.map_reverse, List.sum_reverse, List.map_map, Function.comp_def]
    omega
  · simp only [List.map_cons, List.sum_cons]
    have h : 0 < sizeOf (FsTree.dir es) := by
      simp only [FsTree.dir.sizeOf_spec]; omega
    omega

/-- Function `gatherFiles` from `main.go`, on the tree rooted at `root`. -/
def gatherFiles (root : String) (t : FsTree) (recursive : Bool) : List String :=
  gatherLoop recursive [(root, t)] true []

/-- The create-event handler of `watch` (`main.go` lines 262-275): a new
directory is walked fully recursively and its files filtered by `isVid`;
a new file is enqueued iff `isVid` accepts it. -/
def handleCreate (name : String) (t : FsTree) : List String :=
  match t with
  | FsTree.dir _ => (gatherFiles name t true).filter (fun f => isVid f)
  | FsTree.file => if isVid name then [name] else []

/-- Relation `LeafAt root t q`: `q` is the full path of a leaf FILE node of the
tree `t` rooted at path `root`. -/
inductive LeafAt : String → FsTree → String → Prop where
  | file (p : String) : LeafAt p FsTree.file p
  | dir {p q name : String} {t : FsTree} {es : List (String × FsTree)} :
      (name, t) ∈ es → LeafAt (goJoin p name) t q → LeafAt p (FsTree.dir es) q

/-- A two-stream probe answer: one audio stream then one video stream. -/
def probeTwo (a v : String) : FfprobeOutput :=
  ⟨[⟨0, a, "", "audio"⟩, ⟨1, v, "", "video"⟩], ⟨"", "", ""⟩⟩

/-- An environment in which every syscall and tool invocation succeeds,
with fixed contents written by the encoder and by interrupted copies. -/
def envAllOk (pr : String → Option FfprobeOutput) : Env where
  probe := pr
  encodeOk := fun _ => true
  encodeContent := fun _ => "ENC"
  encodeJunk := fun _ => "JUNK"
  renameOk := fun _ _ => true
  createOk := fun _ => true
  copyOk := fun _ => true
  copyJunk := fun _ => "PART"
  closeOk := fun _ => true

/-- A probe answer claiming the file already matches the targets. -/
def envSkipB : Env :=
  envAllOk (fun p => if p = "b.mp4" then some (probeTwo "aac" "h264") else none)

/-- An environment whose `io.Copy` always fails partway. -/
def envCopyFail : Env :=
  { envAllOk (fun p => if p = "x.mp4" then some (probeTwo "aac" "h264") else none) with
    copyOk := fun _ => false }

/-- An `a.avi`-style input needing transcode, with the rename of the
hidden temporary onto the `-o` output path failing (as a cross-device
`os.Rename` does); everything else succeeds. -/
def envRenameFail : Env :=
  { envAllOk (fun p => if p = "s.avi" then some (probeTwo "mp3" "mpeg4") else none) with
    renameOk := fun src dst => !(src == ".s.mp4" && dst == "/out/s.mp4") }

/-- A `.mp4` input with non-target codecs: the transcode path fires with
the output path equal to the input path. -/
def envTransMp4 : Env :=
  envAllOk (fun p => if p = "a.mp4" then some (probeTwo "mp3" "mpeg4") else none)

/-- Probe fails on `a.avi` only. -/
def envProbeFail : Env :=
  envAllOk (fun p => if p = "a.avi" then none else some (probeTwo "aac" "h264"))

/-- Every probe succeeds but every `os.Create` fails: each skip-path copy
returns a per-job error. -/
def envCreateFail : Env :=
  { envAllOk (fun _ => some (probeTwo "aac" "h264")) with
    createOk := fun _ => false }

/-- Two audio streams (`aac` first, `mp3` second) then one video stream. -/
def threeStreams : List StreamInfo :=
  [⟨0, "aac", "", "audio"⟩, ⟨1, "mp3", "", "audio"⟩, ⟨2, "h264", "", "video"⟩]

def envThreeStreams : Env :=
  envAllOk (fun p => if p = "c.mp4" then some ⟨threeStreams, ⟨"", "", ""⟩⟩ else none)

/-- A small tree with one nested directory. -/
def sampleTree : FsTree :=
  FsTree.dir [("s", FsTree.dir [("f.mp4", FsTree.file)]), ("g.avi", FsTree.file)]

/-- Accumulated files survive the rest of the traversal. -/
theorem gatherLoop_mono (recursive : Bool) (stack : List (String × FsTree))
    (depth1 : Bool) (files : List String) (q : String) :
    q ∈ files → q ∈ gatherLoop recursive stack depth1 files := by
  induction stack, depth1, files using gatherLoop.induct recursive with
  | case1 d f =>
    intro h; simpa [gatherLoop] using h
  | case2 d f p rest ih =>
    intro h
    simp only [gatherLoop]
    exact ih (List.mem_append.2 (Or.inl h))
  | case3 d f p es rest hcond ih =>
    intro h
    simp only [gatherLoop, hcond, if_true]
    exact ih h
  | case4 d f p es rest hcond ih =>
    intro h
    simp only [gatherLoop, if_neg hcond]
    exact ih h

/-- Soundness of the traversal for either recursion flag: every yielded
path is the path of a leaf file of some tree still on the stack (or was
already accumulated). -/
theorem gatherLoop_sound (recursive : Bool) (stack : List (String × FsTree))
    (depth1 : Bool) (files : List String) (q : String) :
    q ∈ gatherLoop recursive stack depth1 files →
    q ∈ files ∨ ∃ e ∈ stack, LeafAt e.1 e.2 q := by
  induction stack, depth1, files using gatherLoop.induct recursive with
  | case1 d f =>
    intro h
    simp only [gatherLoop] at h
    exact Or.inl h
  | case2 d f p rest ih =>
    intro h
    simp only [gatherLoop] at h
    rcases ih h with h' | ⟨e, he, hl⟩
    · rcases List.mem_append.1 h' with h'' | h''
      · exact Or.inl h''
      · refine Or.inr ⟨(p, FsTree.file), List.mem_cons_self _ _, ?_⟩
        have : q = p := by simpa using h''
        subst this
        exact LeafAt.file q
    · exact Or.inr ⟨e, List.mem_cons_of_mem _ he, hl⟩
  | case3 d f p es rest hcond ih =>
    intro h
    simp only [gatherLoop, hcond, if_true] at h
    rcases ih h with h' | ⟨e, he, hl⟩
    · exact Or.inl h'
    · rcases List.mem_append.1 he with he' | he'
      · have he'' := List.mem_reverse.1 he'
        rcases List.mem_map.1 he'' with ⟨a, ha, rfl⟩
        refine Or.inr ⟨(p, FsTree.dir es), List.mem_cons_self _ _, ?_⟩
        exact LeafAt.dir (show (a.1, a.2) ∈ es by simpa using ha) hl
      · exact Or.inr ⟨e, List.mem_cons_of_mem _ he', hl⟩
  | case4 d f p es rest hcond ih =>
    intro h
    simp only [gatherLoop, if_neg hcond] at h
    rcases ih h with h' | ⟨e, he, hl⟩
    · exact Or.inl h'
    · exact Or.inr ⟨e, List.mem_cons_of_mem _ he, hl⟩

/-- Completeness of the fully recursive traversal: every leaf file of
every tree on the stack is yielded. -/
theorem gatherLoop_complete (stack : List (String × FsTree))
    (depth1 : Bool) (files : List String) (q : String) :
    (∃ e ∈ stack, LeafAt e.1 e.2 q) → q ∈ gatherLoop true stack depth1 files := by
  induction stack, depth1, files using gatherLoop.induct true with
  | case1 d f =>
    rintro ⟨e, he, _⟩
    exact absurd he (List.not_mem_nil e)
  | case2 d f p rest ih =>
    rintro ⟨e, he, hl⟩
    simp only [gatherLoop]
    rcases List.mem_cons.1 he with rfl | he'
    · cases hl
      exact gatherLoop_mono true rest d (f ++ [p]) p (List.mem_append.2 (Or.inr (by simp)))
    · exact ih ⟨e, he', hl⟩
  | case3 d f p es rest hcond ih =>
    rintro ⟨e, he, hl⟩
    simp only [gatherLoop, hcond, if_true]
    rcases List.mem_cons.1 he with rfl | he'
    · cases hl with
      | dir hmem hleaf =>
        rename_i name t
        refine ih ⟨(goJoin p name, t), ?_, hleaf⟩
        refine List.mem_append.2 (Or.inl ?_)
        refine List.mem_reverse.2 (List.mem_map.2 ⟨(name, t), hmem, rfl⟩)
    · exact ih ⟨e, List.mem_append.2 (Or.inr he'), hl⟩
  | case4 d f p es rest hcond ih =>
    simp at hcond

/-- With `recursive = false` and the free level spent, the traversal just
collects the file entries on the stack in order and drops directories. -/
theorem gatherLoop_flat (stack : List (String × FsTree)) (files : List String) :
    gatherLoop false stack false files
      = files ++ stack.filterMap (fun e => if e.2.isFile then some e.1 else none) := by
  induction stack generalizing files with
  | nil => simp [gatherLoop]
  | cons e rest ih =>
    obtain ⟨p, t⟩ := e
    cases t with
    | file =>
      simp only [gatherLoop]
      rw [ih]
      simp [FsTree.isFile]
    | dir es =>
      simp only [gatherLoop]
      rw [if_neg (by simp), ih]
      simp [FsTree.isFile]

/-- The fully recursive discovery yields exactly the leaf-file paths. -/
theorem gatherFiles_true_iff (root : String) (t : FsTree) (q : String) :
    q ∈ gatherFiles root t true ↔ LeafAt root t q := by
  constructor
  · intro h
    rcases gatherLoop_sound true [(root, t)] true [] q h with h' | ⟨e, he, hl⟩
    · simp at h'
    · have : e = (root, t) := by simpa using he
      subst this
      exact hl
  · intro h
    exact gatherLoop_complete [(root, t)] true [] q ⟨(root, t), by simp, h⟩

/-- For either recursion flag, only leaf-file paths are ever yielded. -/
theorem gatherFiles_sound (root : String) (t : FsTree) (recursive : Bool) (q : String) :
    q ∈ gatherFiles root t recursive → LeafAt root t q := by
  intro h
  rcases gatherLoop_sound recursive [(root, t)] true [] q h with h' | ⟨e, he, hl⟩
  · simp at h'
  · have : e = (root, t) := by simpa using he
    subst this
    exact hl

/-- Non-recursive discovery on a directory: the immediate children are
listed once (in reversed `ReadDir` order, matching the LIFO pop), file
children are yielded, and directory children are neither descended into
nor yielded. -/
theorem gatherFiles_false_dir (root : String) (es : List (String × FsTree)) :
    gatherFiles root (FsTree.dir es) false
      = (es.filterMap
          (fun e => if e.2.isFile then some (goJoin root e.1) else none)).reverse := by
  unfold gatherFiles
  simp only [gatherLoop]
  rw [if_pos (by simp)]
  rw [gatherLoop_flat]
  simp only [List.append_nil, List.nil_append, List.filterMap_reverse, List.filterMap_map]
  simp [Function.comp_def]

theorem FS.get_set_self (fs : FS) (p v : String) : (fs.set p v).get p = some v := by
  simp [FS.set, FS.get, List.find?]

theorem FS.get_del_ne (fs : FS) (p q : String) (h : q ≠ p) :
    (fs.del p).get q = fs.get q := by
  induction fs with
  | nil => rfl
  | cons e rest ih =>
    obtain ⟨k, v⟩ := e
    by_cases he : k = p
    · subst he
      have hq : (k == q) = false := beq_eq_false_iff_ne.2 (Ne.symm h)
      simp only [FS.del, List.filter_cons, bne_self_eq_false, Bool.false_eq_true,
        if_false, FS.get, List.find?_cons, hq]
      exact ih
    · have hk : (k != p) = true := bne_iff_ne.2 he
      simp only [FS.del, List.filter_cons, hk, if_true]
      by_cases hq : k = q
      · subst hq
        simp [FS.get, List.find?_cons]
      · have hq' : (k == q) = false := beq_eq_false_iff_ne.2 hq
        simp only [FS.get, List.find?_cons, hq']
        exact ih

theorem FS.get_set_ne (fs : FS) (p q v : String) (h : q ≠ p) :
    (fs.set p v).get q = fs.get q := by
  have hq : (p == q) = false := beq_eq_false_iff_ne.2 (Ne.symm h)
  simp only [FS.set, FS.get, List.find?_cons, hq]
  exact FS.get_del_ne fs p q h

theorem FS.get_del_self (fs : FS) (p : String) : (fs.del p).get p = none := by
  induction fs with
  | nil => rfl
  | cons e rest ih =>
    obtain ⟨k, v⟩ := e
    by_cases he : k = p
    · subst he
      simpa [FS.del, List.filter_cons] using ih
    · have hk : (k != p) = true := bne_iff_ne.2 he
      have hk' : (k == p) = false := beq_eq_false_iff_ne.2 he
      simp only [FS.del, List.filter_cons, hk, if_true, FS.get, List.find?_cons, hk']
      exact ih

/-- Function `Copy` never emits anything but a direct data transfer. -/
theorem goCopy_trace_sub (env : Env) (fs : FS) (src dst : String) :
    ∀ e ∈ (goCopy env fs src dst).2.1, e = Eff.copyData src dst := by
  by_cases h : src = dst
  · simp [goCopy, h]
  · cases hg : fs.get src with
    | none => simp [goCopy, h, hg]
    | some c =>
      by_cases h1 : env.createOk dst <;> by_cases h2 : env.copyOk src <;>
        by_cases h3 : env.closeOk dst <;> simp [goCopy, h, hg, h1, h2, h3]

/-- Function `Copy` leaves the source untouched. -/
theorem goCopy_get_src (env : Env) (fs : FS) (src dst : String) :
    ((goCopy env fs src dst).1).get src = fs.get src := by
  by_cases h : src = dst
  · simp [goCopy, h]
  · cases hg : fs.get src with
    | none => simp [goCopy, h, hg]
    | some c =>
      by_cases h1 : env.createOk dst <;> by_cases h2 : env.copyOk src <;>
        by_cases h3 : env.closeOk dst <;>
        simp [goCopy, h, hg, h1, h2, h3,
          FS.get_set_ne fs dst src (env.copyJunk src) h,
          FS.get_set_ne fs dst src c h]

/-- The codec-extraction fold keeps, per stream type, the codec name of
the LAST matching stream, falling back to the accumulator. -/
theorem foldl_codecStep_acc (streams : List StreamInfo) (acc : String × String) :
    streams.foldl codecStep acc
      = (((streams.reverse.find? (fun s => s.codecType == "audio")).map
            (fun s => s.codecName)).getD acc.1,
         ((streams.reverse.find? (fun s => s.codecType == "video")).map
            (fun s => s.codecName)).getD acc.2) := by
  induction streams generalizing acc with
  | nil => simp
  | cons s rest ih =>
    rw [List.foldl_cons, ih (codecStep acc s), List.reverse_cons]
    simp only [List.find?_append, List.find?_singleton]
    by_cases hA : s.codecType = "audio"
    · have hV : ¬s.codecType = "video" := by rw [hA]; decide
      cases ha : rest.reverse.find? (fun s => s.codecType == "audio") <;>
        cases hv : rest.reverse.find? (fun s => s.codecType == "video") <;>
        simp [codecStep, hA, hV, ha, hv]
    · by_cases hV : s.codecType = "video"
      · cases ha : rest.reverse.find? (fun s => s.codecType == "audio") <;>
          cases hv : rest.reverse.find? (fun s => s.codecType == "video") <;>
          simp [codecStep, hA, hV, ha, hv]
      · cases ha : rest.reverse.find? (fun s => s.codecType == "audio") <;>
          cases hv : rest.reverse.find? (fun s => s.codecType == "video") <;>
          simp [codecStep, hA, hV, ha, hv]

/-- Unfolding of `convert` on the skip path with `-d` unset: a direct
`Copy` to the computed output path. -/
theorem convert_skip_copy (cfg : Config) (env : Env) (fs : FS) (path : String)
    (info : FfprobeOutput)
    (hprobe : env.probe path = some info)
    (haudio : (extractCodecs info.streams).1 = "aac")
    (hvideo : (extractCodecs info.streams).2 = "h264")
    (hext : goExt path = ".mp4")
    (hdel : cfg.deleteOriginal = false) :
    convert cfg env fs path
      = ⟨(goCopy env fs path (outPathOf cfg path)).1,
         Eff.probeCall path :: (goCopy env fs path (outPathOf cfg path)).2.1,
         if (goCopy env fs path (outPathOf cfg path)).2.2
         then COut.err path else COut.ok (outPathOf cfg path)⟩ := by
  simp only [convert, hprobe]
  rw [if_pos ⟨haudio, hvideo, hext⟩]
  simp only [hdel, Bool.false_eq_true, if_false]
  by_cases hb : (goCopy env fs path (outPathOf cfg path)).2.2 = true <;> simp [hb]

/-- Unfolding of `convert` on the skip path with `-d` set: a checked
rename of the source to the computed output path. -/
theorem convert_skip_rename (cfg : Config) (env : Env) (fs : FS) (path : String)
    (info : FfprobeOutput)
    (hprobe : env.probe path = some info)
    (haudio : (extractCodecs info.streams).1 = "aac")
    (hvideo : (extractCodecs info.streams).2 = "h264")
    (hext : goExt path = ".mp4")
    (hdel : cfg.deleteOriginal = true) :
    convert cfg env fs path
      = (match fsRename env fs path (outPathOf cfg path) with
         | some fs' =>
           ⟨fs', [Eff.probeCall path, Eff.renameCall path (outPathOf cfg path)],
            COut.ok (outPathOf cfg path)⟩
         | none =>
           ⟨fs, [Eff.probeCall path, Eff.renameCall path (outPathOf cfg path)],
            COut.err path⟩) := by
  simp only [convert, hprobe]
  rw [if_pos ⟨haudio, hvideo, hext⟩]
  simp only [hdel, if_true]

/-- With distinct paths, `Copy` performs exactly one direct data
transfer. -/
theorem goCopy_trace_ne (env : Env) (fs : FS) (src dst : String) (h : src ≠ dst) :
    (goCopy env fs src dst).2.1 = [Eff.copyData src dst] := by
  cases hg : fs.get src with
  | none => simp [goCopy, h, hg]
  | some c =>
    by_cases h1 : env.createOk dst <;> by_cases h2 : env.copyOk src <;>
      by_cases h3 : env.closeOk dst <;> simp [goCopy, h, hg, h1, h2, h3]

/-- Function `Copy` touches no path other than its destination. -/
theorem goCopy_frame (env : Env) (fs : FS) (src dst q : String) (hq : q ≠ dst) :
    ((goCopy env fs src dst).1).get q = fs.get q := by
  by_cases h : src = dst
  · simp [goCopy, h]
  · cases hg : fs.get src with
    | none => simp [goCopy, h, hg]
    | some c =>
      by_cases h1 : env.createOk dst <;> by_cases h2 : env.copyOk src <;>
        by_cases h3 : env.closeOk dst <;>
        simp [goCopy, h, hg, h1, h2, h3,
          FS.get_set_ne fs dst q (env.copyJunk src) hq,
          FS.get_set_ne fs dst q c hq]

/-- Claim C5: for every probed file whose extracted audio codec is `aac`,
whose extracted video codec is `h264`, and whose extension is already the
canonical `.mp4`, `convert` never invokes the encode tool; and when
delete-original is unset the source path's contents are untouched (in
particular the source file still exists). -/
theorem skip_no_encode_source_intact (cfg : Config) (env : Env) (fs : FS)
    (path : String) (info : FfprobeOutput)
    (hprobe : env.probe path = some info)
    (haudio : (extractCodecs info.streams).1 = "aac")
    (hvideo : (extractCodecs info.streams).2 = "h264")
    (hext : goExt path = ".mp4") :
    (∀ src tmp, Eff.encodeCall src tmp ∉ (convert cfg env fs path).trace)
    ∧ (cfg.deleteOriginal = false →
        (convert cfg env fs path).fs.get path = fs.get path) := by
  by_cases hdel : cfg.deleteOriginal = true
  · rw [convert_skip_rename cfg env fs path info hprobe haudio hvideo hext hdel]
    constructor
    · intro src tmp hmem
      cases hr : fsRename env fs path (outPathOf cfg path) with
      | some fs' => rw [hr] at hmem; simp at hmem
      | none => rw [hr] at hmem; simp at hmem
    · intro hfalse
      exact absurd hfalse (by simp [hdel])
  · rw [Bool.not_eq_true] at hdel
    rw [convert_skip_copy cfg env fs path info hprobe haudio hvideo hext hdel]
    constructor
    · intro src tmp hmem
      simp only [List.mem_cons] at hmem
      rcases hmem with h1 | h1
      · simp at h1
      · have h2 := goCopy_trace_sub env fs path (outPathOf cfg path) _ h1
        simp at h2
    · intro _
      exact goCopy_get_src env fs path (outPathOf cfg path)

/-- Claim C5 witness at a concrete compliant file. -/
theorem skip_no_encode_source_intact_witness :
    (∀ src tmp,
      Eff.encodeCall src tmp ∉ (convert ⟨false, ""⟩ envSkipB [("b.mp4", "X")] "b.mp4").trace)
    ∧ (convert ⟨false, ""⟩ envSkipB [("b.mp4", "X")] "b.mp4").fs.get "b.mp4" = some "X" := by
  have h := skip_no_encode_source_intact ⟨false, ""⟩ envSkipB [("b.mp4", "X")] "b.mp4"
    (probeTwo "aac" "h264") (by decide) (by decide) (by decide) (by decide)
  exact ⟨h.1, by rw [h.2 rfl]; decide⟩

/-- Claim C8 counterexample: on the skip path with delete-original SET and
the source equal to the computed target, a rename syscall (to the
identical path) IS executed — the claim's unconditional "no copy and no
rename is executed" fails. -/
theorem skip_selfpath_rename_cex :
    outPathOf ⟨true, ""⟩ "b.mp4" = "b.mp4"
    ∧ Eff.renameCall "b.mp4" "b.mp4"
        ∈ (convert ⟨true, ""⟩ envSkipB [("b.mp4", "X")] "b.mp4").trace := by decide

/-- Claim C8 (amended): on the skip path with the source path equal to the
computed target path, when delete-original is unset `convert` is a true
no-op (`Copy` returns immediately: no data transfer, no rename, filesystem
unchanged, no error); when delete-original is set a rename of the path
onto itself is issued, after which — provided that self-rename succeeds —
the contents of every path are unchanged and no error is returned. -/
theorem skip_selfpath_noop (cfg : Config) (env : Env) (fs : FS) (path : String)
    (info : FfprobeOutput)
    (hprobe : env.probe path = some info)
    (haudio : (extractCodecs info.streams).1 = "aac")
    (hvideo : (extractCodecs info.streams).2 = "h264")
    (hext : goExt path = ".mp4")
    (hsame : outPathOf cfg path = path) :
    (cfg.deleteOriginal = false →
      convert cfg env fs path = ⟨fs, [Eff.probeCall path], COut.ok path⟩)
    ∧ (cfg.deleteOriginal = true → env.renameOk path path = true →
       ∀ c, fs.get path = some c →
        (convert cfg env fs path).out = COut.ok path
        ∧ (convert cfg env fs path).trace
            = [Eff.probeCall path, Eff.renameCall path path]
        ∧ ∀ q, (convert cfg env fs path).fs.get q = fs.get q) := by
  constructor
  · intro hdel
    rw [convert_skip_copy cfg env fs path info hprobe haudio hvideo hext hdel, hsame]
    simp [goCopy]
  · intro hdel hren c hc
    rw [convert_skip_rename cfg env fs path info hprobe haudio hvideo hext hdel, hsame]
    have hr : fsRename env fs path path = some ((fs.del path).set path c) := by
      simp [fsRename, hren, hc]
    rw [hr]
    refine ⟨rfl, rfl, ?_⟩
    intro q
    by_cases hq : q = path
    · subst hq
      rw [FS.get_set_self, hc]
    · rw [FS.get_set_ne _ _ _ _ hq, FS.get_del_ne _ _ _ hq]

/-- Claim C8 witness: the concrete no-op on the copy branch. -/
theorem skip_selfpath_noop_witness :
    convert ⟨false, ""⟩ envSkipB [("b.mp4", "X")] "b.mp4"
      = ⟨[("b.mp4", "X")], [Eff.probeCall "b.mp4"], COut.ok "b.mp4"⟩ :=
  (skip_selfpath_noop ⟨false, ""⟩ envSkipB [("b.mp4", "X")] "b.mp4"
    (probeTwo "aac" "h264") (by decide) (by decide) (by decide) (by decide)
    (by decide)).1 rfl

/-- Claim C10: on the skip path with delete-original unset and a target
different from the source, `convert` copies bytes directly to the final
output path — its only effects are the probe and one direct data
transfer, no temporary path and no rename; every path other than the
output is untouched; if opening the source fails the error is returned
with the filesystem unchanged; and if `io.Copy` fails partway the error
is returned while the partially written data remains at the final output
path. -/
theorem skip_copy_direct_no_temp (cfg : Config) (env : Env) (fs : FS)
    (path c : String) (info : FfprobeOutput)
    (hprobe : env.probe path = some info)
    (haudio : (extractCodecs info.streams).1 = "aac")
    (hvideo : (extractCodecs info.streams).2 = "h264")
    (hext : goExt path = ".mp4")
    (hdel : cfg.deleteOriginal = false)
    (hne : outPathOf cfg path ≠ path) :
    (convert cfg env fs path).trace
        = [Eff.probeCall path, Eff.copyData path (outPathOf cfg path)]
    ∧ (∀ q, q ≠ outPathOf cfg path → (convert cfg env fs path).fs.get q = fs.get q)
    ∧ (fs.get path = none →
        (convert cfg env fs path).out = COut.err path
        ∧ (convert cfg env fs path).fs = fs)
    ∧ (fs.get path = some c → env.createOk (outPathOf cfg path) = true →
        env.copyOk path = false →
        (convert cfg env fs path).out = COut.err path
        ∧ (convert cfg env fs path).fs.get (outPathOf cfg path)
            = some (env.copyJunk path)) := by
  have hne' : path ≠ outPathOf cfg path := fun h => hne h.symm
  rw [convert_skip_copy cfg env fs path info hprobe haudio hvideo hext hdel]
  refine ⟨?_, ?_, ?_, ?_⟩
  · rw [goCopy_trace_ne env fs path (outPathOf cfg path) hne']
  · intro q hq
    exact goCopy_frame env fs path (outPathOf cfg path) q hq
  · intro hg
    constructor
    · simp [goCopy, hne', hg]
    · simp [goCopy, hne', hg]
  · intro hg h1 h2
    constructor
    · simp [goCopy, hne', hg, h1, h2]
    · simp [goCopy, hne', hg, h1, h2, FS.get_set_self]

/-- Claim C10 witness: a concrete interrupted copy leaves partial data at
the final output path and returns an error. -/
theorem skip_copy_direct_no_temp_witness :
    (convert ⟨false, "/out"⟩ envCopyFail [("x.mp4", "X")] "x.mp4").trace
        = [Eff.probeCall "x.mp4",
           Eff.copyData "x.mp4" (outPathOf ⟨false, "/out"⟩ "x.mp4")]
    ∧ (convert ⟨false, "/out"⟩ envCopyFail [("x.mp4", "X")] "x.mp4").out
        = COut.err "x.mp4"
    ∧ (convert ⟨false, "/out"⟩ envCopyFail [("x.mp4", "X")] "x.mp4").fs.get
        (outPathOf ⟨false, "/out"⟩ "x.mp4") = some "PART" := by
  have h := skip_copy_direct_no_temp ⟨false, "/out"⟩ envCopyFail [("x.mp4", "X")]
    "x.mp4" "X" (probeTwo "aac" "h264") (by decide) (by decide) (by decide)
    (by decide) rfl (by decide)
  exact ⟨h.1, (h.2.2.2 rfl rfl rfl).1, (h.2.2.2 rfl rfl rfl).2⟩

/-- Claim C2 failing run: the encode succeeds, the rename of the
temporary to `/out/s.mp4` FAILS, yet `convert` — whose `os.Rename` error
is discarded — still removes the source and reports success: the source
is deleted although the rename did not succeed, and no output exists. -/
theorem delete_original_after_failed_rename_eval :
    envRenameFail.renameOk ".s.mp4" "/out/s.mp4" = false
    ∧ (convert ⟨true, "/out"⟩ envRenameFail [("s.avi", "ORIG")] "s.avi").out
        = COut.ok "/out/s.mp4"
    ∧ (convert ⟨true, "/out"⟩ envRenameFail [("s.avi", "ORIG")] "s.avi").fs.get
        "s.avi" = none
    ∧ (convert ⟨true, "/out"⟩ envRenameFail [("s.avi", "ORIG")] "s.avi").fs.get
        "/out/s.mp4" = none := by decide

/-- Claim C6 failing run: transcoding `a.mp4` in place with delete-original
set succeeds (encode into `.a.mp4`, rename onto `a.mp4`), after which
`os.Remove(path)` deletes the just-renamed output: `convert` reports
success but no file exists at the final output path. -/
theorem transcode_inplace_delete_eval :
    outPathOf ⟨true, ""⟩ "a.mp4" = "a.mp4"
    ∧ Eff.encodeCall "a.mp4" ".a.mp4"
        ∈ (convert ⟨true, ""⟩ envTransMp4 [("a.mp4", "ORIG")] "a.mp4").trace
    ∧ (convert ⟨true, ""⟩ envTransMp4 [("a.mp4", "ORIG")] "a.mp4").out
        = COut.ok "a.mp4"
    ∧ (convert ⟨true, ""⟩ envTransMp4 [("a.mp4", "ORIG")] "a.mp4").fs.get
        "a.mp4" = none := by decide

/-- Claim C1 counterexample: with two queued jobs, the probe failure on the
first makes `getInfo`'s `log.Fatalf` kill the whole process — the result
records the death and the second job is never processed, contrary to the
claim that the worker continues and the process does not terminate. -/
theorem probe_failure_kills_worker_cex :
    runJobs ⟨false, ""⟩ envProbeFail [("a.avi", "A"), ("b.mp4", "B")]
        ["a.avi", "b.mp4"]
      = ⟨[("a.avi", "A"), ("b.mp4", "B")],
         [("a.avi", COut.fatal "unable to ffprobe input")], true⟩ := by decide

/-- Claim C1 (amended): a per-job error returned by `convert` (encode-tool
failure or skip-path copy/rename failure) is logged and only that job is
abandoned — the worker continues with the remaining jobs; a probe failure
(non-zero probe exit or unparsable probe JSON) instead terminates the
whole process, leaving the remaining jobs unprocessed. -/
theorem per_job_error_isolation (cfg : Config) (env : Env) (fs : FS)
    (j : String) (rest : List String) :
    (∀ e, (convert cfg env fs j).out = COut.err e →
      runJobs cfg env fs (j :: rest)
        = ⟨(runJobs cfg env (convert cfg env fs j).fs rest).fs,
           (j, COut.err e) :: (runJobs cfg env (convert cfg env fs j).fs rest).outcomes,
           (runJobs cfg env (convert cfg env fs j).fs rest).died⟩)
    ∧ (env.probe j = none →
      runJobs cfg env fs (j :: rest)
        = ⟨fs, [(j, COut.fatal "unable to ffprobe input")], true⟩) := by
  constructor
  · intro e he
    simp only [runJobs]
    rw [he]
  · intro hp
    have hc : convert cfg env fs j
        = ⟨fs, [Eff.probeCall j], COut.fatal "unable to ffprobe input"⟩ := by
      simp [convert, hp]
    simp only [runJobs, hc]

/-- Claim C1 witness: after a per-job copy error on the first job the
worker really does process the second job. -/
theorem per_job_error_isolation_witness :
    runJobs ⟨false, "/out"⟩ envCreateFail [("x.mp4", "X"), ("y.mp4", "Y")]
        ["x.mp4", "y.mp4"]
      = ⟨[("x.mp4", "X"), ("y.mp4", "Y")],
         [("x.mp4", COut.err "x.mp4"), ("y.mp4", COut.err "y.mp4")], false⟩ := by
  rw [(per_job_error_isolation ⟨false, "/out"⟩ envCreateFail
    [("x.mp4", "X"), ("y.mp4", "Y")] "x.mp4" ["y.mp4"]).1 "x.mp4" (by decide)]
  decide

/-- Claim C3 counterexample: for a probe listing `aac` as FIRST audio
codec and `h264` as first (and only) video codec of a `.mp4` file, the
extraction yields the LAST audio codec `mp3`, and `convert` consequently
invokes the encode tool instead of taking the skip path the claim's
first-seen rule would imply. -/
theorem first_stream_codec_cex :
    (threeStreams.find? (fun s => s.codecType == "audio")).map
        (fun s => s.codecName) = some "aac"
    ∧ (threeStreams.find? (fun s => s.codecType == "video")).map
        (fun s => s.codecName) = some "h264"
    ∧ goExt "c.mp4" = ".mp4"
    ∧ extractCodecs threeStreams = ("mp3", "h264")
    ∧ Eff.encodeCall "c.mp4" ".c.mp4"
        ∈ (convert ⟨false, ""⟩ envThreeStreams [("c.mp4", "X")] "c.mp4").trace := by
  decide

/-- Claim C3 (amended): for every probed file `convert` uses, per stream
type, the codec name of the LAST stream of that type in the probe tool's
ordering (the loop overwrites on every match); earlier streams of the
same type are the ones ignored, with the empty string when no stream of
the type exists. -/
theorem extractCodecs_last_per_type (streams : List StreamInfo) :
    extractCodecs streams
      = (((streams.reverse.find? (fun s => s.codecType == "audio")).map
            (fun s => s.codecName)).getD "",
         ((streams.reverse.find? (fun s => s.codecType == "video")).map
            (fun s => s.codecName)).getD "") :=
  foldl_codecStep_acc streams ("", "")

/-- Claim C4 counterexample: non-recursive discovery over a root directory
containing exactly one subdirectory yields NOTHING — in particular it
does not yield the subdirectory's path, which the claim asserts. -/
theorem discover_subdir_not_yielded_cex :
    gatherFiles "root" (FsTree.dir [("s", FsTree.dir [("f.mp4", FsTree.file)])]) false
        = []
    ∧ "root/s" ∉
        gatherFiles "root" (FsTree.dir [("s", FsTree.dir [("f.mp4", FsTree.file)])])
          false := by
  have h : gatherFiles "root"
      (FsTree.dir [("s", FsTree.dir [("f.mp4", FsTree.file)])]) false = [] := by
    rw [gatherFiles_false_dir]
    simp [FsTree.isFile]
  exact ⟨h, by rw [h]; simp⟩

/-- Claim C4 (amended): `discover(root, recursive=false)` on a directory
containing one subdirectory yields nothing for that subdirectory — it
neither yields the subdirectory's path nor descends into it — while
`discover(root, recursive=true)` descends fully and yields exactly the
leaf files. -/
theorem discover_semantics (root name : String) (sub : List (String × FsTree)) :
    gatherFiles root (FsTree.dir [(name, FsTree.dir sub)]) false = []
    ∧ ∀ (t : FsTree) (q : String), q ∈ gatherFiles root t true ↔ LeafAt root t q := by
  constructor
  · rw [gatherFiles_false_dir]
    simp [FsTree.isFile]
  · intro t q
    exact gatherFiles_true_iff root t q

/-- Claim C7: a directory root's immediate children are expanded even
without the recursive flag — its file children are all yielded, its
directory children contribute nothing (no deeper entry is yielded without
`recursive`, and directories themselves are never yielded); with the
recursive flag every leaf file, arbitrarily deep, is yielded; and for
either flag every yielded path is the path of a leaf file. -/
theorem discover_depth_policy (root : String) (es : List (String × FsTree))
    (t : FsTree) :
    gatherFiles root (FsTree.dir es) false
      = (es.filterMap
          (fun e => if e.2.isFile then some (goJoin root e.1) else none)).reverse
    ∧ (∀ (recursive : Bool) (q : String),
        q ∈ gatherFiles root t recursive → LeafAt root t q)
    ∧ (∀ q : String, LeafAt root t q → q ∈ gatherFiles root t true) := by
  refine ⟨gatherFiles_false_dir root es, ?_, ?_⟩
  · intro r q h
    exact gatherFiles_sound root t r q h
  · intro q h
    exact (gatherFiles_true_iff root t q).2 h

/-- Claim C7 witness: soundness applied to a concrete recursive run. -/
theorem discover_depth_policy_witness :
    LeafAt "root" sampleTree "root/s/f.mp4" :=
  (discover_depth_policy "root" [] sampleTree).2.1 true "root/s/f.mp4"
    (by simp [gatherFiles, gatherLoop, sampleTree, goJoin])

/-- Claim C9: a create-event for a new directory enqueues exactly the
paths that are leaf files of the fully recursive traversal AND media
candidates according to `isVid`; a create-event for a file enqueues it
iff it is a media candidate. -/
theorem watch_create_enqueue (name : String) (es : List (String × FsTree))
    (q : String) :
    (q ∈ handleCreate name (FsTree.dir es)
        ↔ (LeafAt name (FsTree.dir es) q ∧ isVid q = true))
    ∧ (q ∈ handleCreate name FsTree.file ↔ (q = name ∧ isVid name = true)) := by
  constructor
  · simp only [handleCreate]
    constructor
    · intro h
      rcases List.mem_filter.1 h with ⟨h1, h2⟩
      exact ⟨(gatherFiles_true_iff name (FsTree.dir es) q).1 h1, h2⟩
    · rintro ⟨h1, h2⟩
      exact List.mem_filter.2
        ⟨(gatherFiles_true_iff name (FsTree.dir es) q).2 h1, h2⟩
  · simp only [handleCreate]
    by_cases hv : isVid name = true
    · simp [hv]
    · simp [hv]
